import Mathlib

/-
Shallow embedding of the jsonpath streaming decoder (decoder.go, path.go).

The decoder wraps a forward-only JSON token source.  It maintains a path
(stack of object keys / array indices) and a context, updated on every
token, and offers SeekTo (seek to a literal path), Scan (dispatch callbacks
on relative-path pattern matches) and Decode (full-value decode with
context bookkeeping).

Go's mutable decoder is modelled by explicit state passing: `DecState`
carries the remaining tokens of the underlying source, the terminal
condition the source reports once exhausted (clean end of stream or a
parse error), and the decoder's path and context.  Go run-time panics
(mutating an empty path, incrementing a key-shaped top) are modelled by
`Option`/dedicated `panic` constructors.
-/

/-- One path segment: a JSON object key or an array index.
In the Go source a segment is an `interface{}` holding a `string` or an
`int`; Go interface equality (never equal across the two types) matches
constructor-distinct equality here. -/
inductive Seg where
  | key (s : String)
  | idx (i : Int)
deriving DecidableEq, Repr

/-- JsonPath: the stack of segments from the document root (path.go). -/
abbrev JsonPath := List Seg

/-- jsonContext from path.go: what the tracker expects next. -/
inductive jsonContext where
  | none
  | objKey
  | objValue
  | arrValue
deriving DecidableEq, Repr

/-- push from path.go: `*p = append(*p, n)`. -/
def push (p : JsonPath) (s : Seg) : JsonPath := p ++ [s]

/-- pop from path.go: `*p = (*p)[:len(*p)-1]`; slicing an empty path is a
Go run-time panic, modelled as `Option.none`. -/
def pop (p : JsonPath) : Option JsonPath :=
  if p = [] then Option.none else some p.dropLast

/-- incTop from path.go: `(*p)[len(*p)-1] = (*p)[len(*p)-1].(int) + 1`;
the type assertion panics unless the top is an index (and indexing panics
on an empty path), modelled as `Option.none`. -/
def incTop (p : JsonPath) : Option JsonPath :=
  match p.getLast? with
  | some (Seg.idx i) => some (p.dropLast ++ [Seg.idx (i + 1)])
  | _ => Option.none

/-- nameTop from path.go: `(*p)[len(*p)-1] = n`; indexing an empty path is
a Go run-time panic, modelled as `Option.none`. -/
def nameTop (p : JsonPath) (n : String) : Option JsonPath :=
  if p = [] then Option.none else some (p.dropLast ++ [Seg.key n])

/-- inferContext from path.go: context from the top segment.  The Go
default branch panics on a segment that is neither string nor int, which
the `Seg` type rules out, so the function is total here. -/
def inferContext (p : JsonPath) : jsonContext :=
  match p.getLast? with
  | Option.none => jsonContext.none
  | some (Seg.key _) => jsonContext.objKey
  | some (Seg.idx _) => jsonContext.arrValue

/-- Equal from path.go: length check, then element-wise interface
equality. -/
def pathEqual (p o : JsonPath) : Bool :=
  if p.length = o.length then (p.zip o).all (fun vu => vu.1 == vu.2)
  else false

/-- Primitive tokens of the underlying token source (encoding/json
delimiters, strings, numbers, bools, null).  The numeric payload is an
`Int`: the decoder's path logic never inspects numeric values. -/
inductive JsonToken where
  | objOpen
  | objClose
  | arrOpen
  | arrClose
  | str (s : String)
  | num (n : Int)
  | boolTok (b : Bool)
  | nullTok
deriving DecidableEq, Repr

/-- Token as returned by Decoder.Token(): either the source token
unchanged, or a string re-tagged as KeyString (decoder.go line 147). -/
inductive OutToken where
  | tok (t : JsonToken)
  | keyStr (s : String)
deriving DecidableEq, Repr

/-- What the underlying token source reports once its tokens run out:
clean end of stream (io.EOF) or an upstream parse error. -/
inductive TokErr where
  | eof
  | parse (msg : String)
deriving DecidableEq, Repr

/-- State of the extended Decoder: remaining source tokens, the source's
terminal condition, and the tracked path and context. -/
structure DecState where
  toks : List JsonToken
  final : TokErr
  path : JsonPath
  context : jsonContext
deriving DecidableEq, Repr

/-- The pure path/context transition of Decoder.Token() (decoder.go
lines 94-156) on one source token, also producing the emitted token.
`Option.none` models the Go run-time panics of incTop/nameTop/pop on
invariant violations. -/
def tokenStepCore (t : JsonToken) (p : JsonPath) (c : jsonContext) :
    Option (OutToken × JsonPath × jsonContext) :=
  match t with
  | JsonToken.nullTok =>
    match c with
    | jsonContext.objValue => some (OutToken.tok t, p, jsonContext.objKey)
    | jsonContext.arrValue => (incTop p).map (fun p' => (OutToken.tok t, p', c))
    | _ => some (OutToken.tok t, p, c)
  | JsonToken.objOpen =>
    match c with
    | jsonContext.arrValue =>
      (incTop p).map (fun p' => (OutToken.tok t, push p' (Seg.key ""), jsonContext.objKey))
    | _ => some (OutToken.tok t, push p (Seg.key ""), jsonContext.objKey)
  | JsonToken.objClose =>
    (pop p).map (fun p' => (OutToken.tok t, p', inferContext p'))
  | JsonToken.arrOpen =>
    match c with
    | jsonContext.arrValue =>
      (incTop p).map (fun p' => (OutToken.tok t, push p' (Seg.idx (-1)), jsonContext.arrValue))
    | _ => some (OutToken.tok t, push p (Seg.idx (-1)), jsonContext.arrValue)
  | JsonToken.arrClose =>
    (pop p).map (fun p' => (OutToken.tok t, p', inferContext p'))
  | JsonToken.num _ =>
    match c with
    | jsonContext.objValue => some (OutToken.tok t, p, jsonContext.objKey)
    | jsonContext.arrValue => (incTop p).map (fun p' => (OutToken.tok t, p', c))
    | _ => some (OutToken.tok t, p, c)
  | JsonToken.boolTok _ =>
    match c with
    | jsonContext.objValue => some (OutToken.tok t, p, jsonContext.objKey)
    | jsonContext.arrValue => (incTop p).map (fun p' => (OutToken.tok t, p', c))
    | _ => some (OutToken.tok t, p, c)
  | JsonToken.str s =>
    match c with
    | jsonContext.objKey =>
      (nameTop p s).map (fun p' => (OutToken.keyStr s, p', jsonContext.objValue))
    | jsonContext.objValue => some (OutToken.tok t, p, jsonContext.objKey)
    | jsonContext.arrValue => (incTop p).map (fun p' => (OutToken.tok t, p', c))
    | jsonContext.none => some (OutToken.tok t, p, c)

/-- Result of one Decoder.Token() call. -/
inductive TokenResult where
  | ok (t : OutToken) (s : DecState)
  | fail (e : TokErr) (s : DecState)
  | panic
deriving DecidableEq, Repr

/-- Decoder.Token(): pull one token from the source (reporting the
terminal condition when exhausted), then apply the path/context
transition. -/
def tokenStep (s : DecState) : TokenResult :=
  match s.toks with
  | [] => TokenResult.fail s.final s
  | t :: rest =>
    match tokenStepCore t s.path s.context with
    | Option.none => TokenResult.panic
    | some (o, p, c) => TokenResult.ok o ⟨rest, s.final, p, c⟩

/-- Result of SeekTo: `(found, error)` in Go.  `ok found s` is a normal
return with a nil error; `err m s` is a propagated upstream parse error;
`panic` models a Go run-time panic (and the unreachable fuel default). -/
inductive NavResult where
  | ok (found : Bool) (s : DecState)
  | err (msg : String) (s : DecState)
  | panic
deriving DecidableEq, Repr

/-- The SeekTo loop (decoder.go lines 50-60), fueled for structural
recursion: compare the live path to the target; on match return
`(true, nil)`; on io.EOF return `(false, nil)`; on another error
propagate it.  Each iteration consumes one source token, so fuel
`s.toks.length + 1` (supplied by `seekLoop`) is never exhausted. -/
def seekLoopF : Nat → JsonPath → DecState → NavResult
  | 0, _, _ => NavResult.panic
  | Nat.succ fuel, target, s =>
    if pathEqual s.path target then NavResult.ok true s
    else
      match tokenStep s with
      | TokenResult.ok _ s' => seekLoopF fuel target s'
      | TokenResult.fail TokErr.eof s' => NavResult.ok false s'
      | TokenResult.fail (TokErr.parse m) s' => NavResult.err m s'
      | TokenResult.panic => NavResult.panic

/-- The SeekTo loop with exactly sufficient fuel. -/
def seekLoop (target : JsonPath) (s : DecState) : NavResult :=
  seekLoopF (s.toks.length + 1) target s

/-- The argument adjustment of SeekTo (decoder.go lines 45-48): if the
final element of the argument slice is an int `i`, overwrite it with
`i - 1`.  Go performs this in place on the caller-supplied slice; the
adjusted slice is the value the caller's slice holds after the call. -/
def adjustSeekTarget (target : JsonPath) : JsonPath :=
  match target.getLast? with
  | some (Seg.idx i) => target.dropLast ++ [Seg.idx (i - 1)]
  | _ => target

/-- SeekTo (decoder.go lines 40-61).  Returns the Go result together
with the contents of the caller-supplied argument slice after the call
(SeekTo mutates it in place via the final-index adjustment). -/
def seekTo (target : JsonPath) (s : DecState) : NavResult × JsonPath :=
  if target.length = 0 then (NavResult.ok (s.path.length == 0) s, target)
  else (seekLoop (adjustSeekTarget target) s, adjustSeekTarget target)

/-- The list of decoder states the SeekTo loop inspects, in order: the
state at call time, then the state after each successful Token() call,
stopping when the source fails.  Fueled like `seekLoopF`. -/
def traceF : Nat → DecState → List DecState
  | 0, _ => []
  | Nat.succ fuel, s =>
    s ::
      match tokenStep s with
      | TokenResult.ok _ s' => traceF fuel s'
      | _ => []

/-- `traceF` with exactly sufficient fuel. -/
def trace (s : DecState) : List DecState :=
  traceF (s.toks.length + 1) s

/-- The context/path switch at the top of Decoder.Decode() (decoder.go
lines 66-73): objValue becomes objKey; arrValue increments the top
index (a Go panic, modelled `Option.none`, if the top is not an index). -/
def decodeBookkeeping (p : JsonPath) (c : jsonContext) :
    Option (JsonPath × jsonContext) :=
  match c with
  | jsonContext.objValue => some (p, jsonContext.objKey)
  | jsonContext.arrValue => (incTop p).map (fun p' => (p', c))
  | _ => some (p, c)

/-- Helper for `takeValue`: consume tokens until the depth-`d` open
delimiters are matched, accumulating the consumed tokens. -/
def takeValueAux : List JsonToken → Nat → List JsonToken →
    Option (List JsonToken × List JsonToken)
  | [], _, _ => Option.none
  | t :: rest, d, acc =>
    match t with
    | JsonToken.objOpen => takeValueAux rest (d + 1) (acc ++ [t])
    | JsonToken.arrOpen => takeValueAux rest (d + 1) (acc ++ [t])
    | JsonToken.objClose =>
      if d = 1 then some (acc ++ [t], rest) else takeValueAux rest (d - 1) (acc ++ [t])
    | JsonToken.arrClose =>
      if d = 1 then some (acc ++ [t], rest) else takeValueAux rest (d - 1) (acc ++ [t])
    | _ => takeValueAux rest d (acc ++ [t])

/-- The external full-value decode collaborator (encoding/json's
Decode): consumes exactly one full JSON value from the token stream,
returning the consumed tokens and the remainder; `Option.none` on an
exhausted or malformed stream. -/
def takeValue (toks : List JsonToken) : Option (List JsonToken × List JsonToken) :=
  match toks with
  | [] => Option.none
  | t :: rest =>
    match t with
    | JsonToken.objOpen => takeValueAux rest 1 [t]
    | JsonToken.arrOpen => takeValueAux rest 1 [t]
    | JsonToken.objClose => Option.none
    | JsonToken.arrClose => Option.none
    | _ => some ([t], rest)

/-- Decoder.Decode() (decoder.go lines 65-75): apply the context/path
bookkeeping, then delegate to the underlying full-value decode.  Returns
the tokens of the decoded value together with the new state. -/
def decode (s : DecState) : Option (List JsonToken × DecState) :=
  match decodeBookkeeping s.path s.context with
  | Option.none => Option.none
  | some (p, c) =>
    match takeValue s.toks with
    | Option.none => Option.none
    | some (v, rest) => some (v, ⟨rest, s.final, p, c⟩)

/-- json.Decoder.More(): true when the next element of the current array
or object is available without consuming a token, i.e. the next token
exists and is not a closing delimiter. -/
def more : List JsonToken → Bool
  | [] => false
  | t :: _ => !(t == JsonToken.arrClose || t == JsonToken.objClose)

/-- A Scan callback: receives the decoder and may navigate or decode.
Modelled as a state transformer that also reports a payload (for the
invocation log); `Option.none` models a panicking callback. -/
abbrev ScanAction := DecState → Option (List JsonToken × DecState)

/-- Modelled from the spec: one edge label of the pattern trie
(PathActions is not part of the provided sources).  A trie edge matches
an exact key, an exact index, or a wildcard matching any key / any index
at that depth (spec section 4.4). -/
inductive PathMatcher where
  | exactKey (k : String)
  | exactIdx (i : Int)
  | anyKey
  | anyIdx

/-- Modelled from the spec: a pattern-trie node, optionally carrying a
callback, with child edges keyed by matcher kind (spec sections 3
and 4.4). -/
inductive TrieNode where
  | node (action : Option ScanAction) (children : List (PathMatcher × TrieNode))

/-- Modelled from the spec: whether one trie edge matches one path
segment. -/
def segMatcherFits : PathMatcher → Seg → Bool
  | PathMatcher.exactKey k, Seg.key s => k == s
  | PathMatcher.exactIdx i, Seg.idx j => i == j
  | PathMatcher.anyKey, Seg.key _ => true
  | PathMatcher.anyIdx, Seg.idx _ => true
  | _, _ => false

/-- Modelled from the spec: first child edge matching a segment. -/
def findChild : List (PathMatcher × TrieNode) → Seg → Option TrieNode
  | [], _ => Option.none
  | (m, c) :: rest, sg =>
    if segMatcherFits m sg then some c else findChild rest sg

/-- Modelled from the spec: exact lookup of a relative path in the trie,
one edge per path segment. -/
def trieMatch (n : TrieNode) : JsonPath → Option TrieNode
  | [] => some n
  | sg :: rest =>
    match n with
    | TrieNode.node _ children =>
      match findChild children sg with
      | some c => trieMatch c rest
      | Option.none => Option.none

/-- Scan's invocation log (ghost observation of callback calls): the
decoder path at invocation time and the callback's payload. -/
abbrev ScanLog := List (JsonPath × List JsonToken)

/-- Result of Scan: `(matched, error)` in Go, plus the invocation log.
Note Scan propagates every Token() error, io.EOF included
(decoder.go lines 168-171). -/
inductive ScanRes where
  | done (matched : Bool) (log : ScanLog) (s : DecState)
  | err (matched : Bool) (e : TokErr) (log : ScanLog) (s : DecState)
  | panic
  | outOfFuel
deriving Repr

/-- The two program points of Scan's loop: the top of the `for` (advance
one token) and the `match:` label the `goto` jumps back to. -/
inductive ScanPhase where
  | advance
  | matchStep

/-- The Scan loop (decoder.go lines 167-194), fueled.  `advance` pulls
one token, propagating any source error as Go does; `matchStep` is the
`match:` label: stop with `(matched, nil)` unless the current path is
strictly longer than the root, otherwise look up the relative path
(current path with the root prefix stripped) in the trie; on a match
with a callback, invoke it, and when the context is arrValue and More()
holds, jump back to `match:` without consuming a token. -/
def scanStep : Nat → ScanPhase → TrieNode → JsonPath → Bool → ScanLog → DecState → ScanRes
  | 0, _, _, _, _, _, _ => ScanRes.outOfFuel
  | Nat.succ fuel, ScanPhase.advance, ext, root, matched, log, s =>
    (match tokenStep s with
     | TokenResult.ok _ s' => scanStep fuel ScanPhase.matchStep ext root matched log s'
     | TokenResult.fail e s' => ScanRes.err matched e log s'
     | TokenResult.panic => ScanRes.panic)
  | Nat.succ fuel, ScanPhase.matchStep, ext, root, matched, log, s =>
    if s.path.length > root.length then
      match trieMatch ext (s.path.drop root.length) with
      | some (TrieNode.node (some act) _) =>
        (match act s with
         | Option.none => ScanRes.panic
         | some (payload, s') =>
           if s'.context == jsonContext.arrValue && more s'.toks then
             scanStep fuel ScanPhase.matchStep ext root true (log ++ [(s.path, payload)]) s'
           else
             scanStep fuel ScanPhase.advance ext root true (log ++ [(s.path, payload)]) s')
      | _ => scanStep fuel ScanPhase.advance ext root matched log s
    else ScanRes.done matched log s

/-- Decoder.Scan (decoder.go lines 159-195): take the current path as
root, pre-incrementing its trailing index when the root sits in array
context (a Go panic, modelled `ScanRes.panic`, is impossible there
since an arrValue inference guarantees an index top), then run the
loop. -/
def scan (fuel : Nat) (ext : TrieNode) (s : DecState) : ScanRes :=
  if inferContext s.path == jsonContext.arrValue then
    match incTop s.path with
    | some r => scanStep fuel ScanPhase.advance ext r false [] s
    | Option.none => ScanRes.panic
  else scanStep fuel ScanPhase.advance ext s.path false [] s

/-
Slice-aliasing model for Path() snapshots.

`Path()` (decoder.go lines 79-83) does `make` + `copy` and returns the
fresh slice.  To state that the returned value is an independent
snapshot — the very thing a pure embedding would render vacuous — the
backing arrays are made explicit: a heap of arrays addressed by id.  The
decoder's path lives at `decId`; every mutation of the tracker writes
through that id; `Path()` allocates a fresh id holding a copy.  (Had the
source returned `d.path` directly, the faithful translation would return
`decId` itself and the independence theorem would fail.)  SeekTo and
Scan mutate the path only through Token()/Decode() steps, so a run is a
list of those two operations.
-/

/-- A heap of path backing arrays plus the id of the decoder's path. -/
structure HeapState where
  heap : List JsonPath
  decId : Nat
deriving DecidableEq, Repr

/-- Read the array at an id. -/
def heapGet (h : List JsonPath) (i : Nat) : JsonPath := h.getD i []

/-- Overwrite the array at an id. -/
def heapSet (h : List JsonPath) (i : Nat) (p : JsonPath) : List JsonPath :=
  h.set i p

/-- Decoder.Token() acting on the heap: the path/context transition of
`tokenStepCore`, writing the new path through the decoder's id. -/
def hTokenStep (st : HeapState) (c : jsonContext) (t : JsonToken) :
    Option (HeapState × jsonContext) :=
  match tokenStepCore t (heapGet st.heap st.decId) c with
  | Option.none => Option.none
  | some (_, p', c') => some ({ st with heap := heapSet st.heap st.decId p' }, c')

/-- Decoder.Decode() bookkeeping acting on the heap. -/
def hDecodeStep (st : HeapState) (c : jsonContext) :
    Option (HeapState × jsonContext) :=
  match decodeBookkeeping (heapGet st.heap st.decId) c with
  | Option.none => Option.none
  | some (p', c') => some ({ st with heap := heapSet st.heap st.decId p' }, c')

/-- One decoder operation that can follow a Path() call: a Token() step
on a given source token, or a Decode() bookkeeping step.  SeekTo and
Scan are loops of exactly these. -/
inductive DecOp where
  | tok (t : JsonToken)
  | dec

/-- Run a sequence of decoder operations on the heap. -/
def hRun : HeapState → jsonContext → List DecOp → Option (HeapState × jsonContext)
  | st, c, [] => some (st, c)
  | st, c, DecOp.tok t :: ops =>
    (match hTokenStep st c t with
     | Option.none => Option.none
     | some (st', c') => hRun st' c' ops)
  | st, c, DecOp.dec :: ops =>
    (match hDecodeStep st c with
     | Option.none => Option.none
     | some (st', c') => hRun st' c' ops)

/-- Path() (decoder.go lines 79-83) on the heap: allocate a fresh array,
copy the decoder's path into it, return its id. -/
def hPath (st : HeapState) : HeapState × Nat :=
  ({ st with heap := st.heap ++ [heapGet st.heap st.decId] }, st.heap.length)

/-
Concrete inputs used by the Scan claims and by witnesses.
-/

/-- A fresh decoder over the document `[1,2,3]`, the source ending
cleanly. -/
def docArr123 : DecState :=
  ⟨[JsonToken.arrOpen, JsonToken.num 1, JsonToken.num 2, JsonToken.num 3,
    JsonToken.arrClose], TokErr.eof, [], jsonContext.none⟩

/-- A fresh decoder over `{"a":[0,"s",120000,{"b":0,"v":35}]}` (the
spec's SeekTo example document), the source ending cleanly. -/
def docNested : DecState :=
  ⟨[JsonToken.objOpen, JsonToken.str "a", JsonToken.arrOpen, JsonToken.num 0,
    JsonToken.str "s", JsonToken.num 120000, JsonToken.objOpen,
    JsonToken.str "b", JsonToken.num 0, JsonToken.str "v", JsonToken.num 35,
    JsonToken.objClose, JsonToken.arrClose, JsonToken.objClose],
   TokErr.eof, [], jsonContext.none⟩

/-- A callback that decodes one full value (the typical registered
action), logging the decoded tokens. -/
def decodeAction : ScanAction := fun s => decode s

/-- A registration whose pattern matches any array index at depth one
under the scan root, with a decoding callback. -/
def trieAnyIdx : TrieNode :=
  TrieNode.node Option.none
    [(PathMatcher.anyIdx, TrieNode.node (some decodeAction) [])]

/-- A registration whose pattern matches exactly index 1 at depth one
under the scan root, with a decoding callback. -/
def trieIdx1 : TrieNode :=
  TrieNode.node Option.none
    [(PathMatcher.exactIdx 1, TrieNode.node (some decodeAction) [])]

/-- The trivial trie: no children, no action. -/
def trieEmpty : TrieNode := TrieNode.node Option.none []

/-- A decoder whose source is already exhausted with a clean end of
stream. -/
def exhaustedDec : DecState := ⟨[], TokErr.eof, [], jsonContext.none⟩

/-
Helper lemmas.
-/

/-- A successful Token() call consumes exactly one source token. -/
theorem tokenStep_ok_toks : ∀ (s : DecState) (o : OutToken) (s' : DecState),
    tokenStep s = TokenResult.ok o s' → s'.toks.length < s.toks.length := by
  intro ⟨toks, fin, p, c⟩ o s' h
  cases toks with
  | nil => exact absurd h (by simp [tokenStep])
  | cons t rest =>
    simp only [tokenStep] at h
    cases hc : tokenStepCore t p c with
    | none => rw [hc] at h; simp at h
    | some v =>
      obtain ⟨o', p', c'⟩ := v
      rw [hc] at h
      simp only [TokenResult.ok.injEq] at h
      rw [← h.2]
      simp

/-- The seek loop's result does not depend on the fuel, provided the
fuel exceeds the number of remaining source tokens. -/
theorem seekLoopF_mono : ∀ (f1 f2 : Nat) (target : JsonPath) (s : DecState),
    s.toks.length < f1 → s.toks.length < f2 →
    seekLoopF f1 target s = seekLoopF f2 target s := by
  intro f1
  induction f1 with
  | zero => intro f2 target s h1 _; exact absurd h1 (Nat.not_lt_zero _)
  | succ f ih =>
    intro f2 target s h1 h2
    cases f2 with
    | zero => exact absurd h2 (Nat.not_lt_zero _)
    | succ g =>
      rw [seekLoopF, seekLoopF]
      cases hp : pathEqual s.path target with
      | true => rfl
      | false =>
        rw [if_neg (by simp)]
        rw [if_neg (by simp)]
        cases hts : tokenStep s with
        | ok o s' =>
          have hlt := tokenStep_ok_toks s o s' hts
          exact ih g target s' (by omega) (by omega)
        | fail e s' => cases e <;> rfl
        | panic => rfl

/-- The trace's contents do not depend on the fuel, provided the fuel
exceeds the number of remaining source tokens. -/
theorem traceF_mono : ∀ (f1 f2 : Nat) (s : DecState),
    s.toks.length < f1 → s.toks.length < f2 →
    traceF f1 s = traceF f2 s := by
  intro f1
  induction f1 with
  | zero => intro f2 s h1 _; exact absurd h1 (Nat.not_lt_zero _)
  | succ f ih =>
    intro f2 s h1 h2
    cases f2 with
    | zero => exact absurd h2 (Nat.not_lt_zero _)
    | succ g =>
      rw [traceF, traceF]
      cases hts : tokenStep s with
      | ok o s' =>
        have hlt := tokenStep_ok_toks s o s' hts
        exact congrArg (List.cons s) (ih g s' (by omega) (by omega))
      | fail e s' => rfl
      | panic => rfl

/-- The seek loop finds exactly the first inspected state whose live
path equals the target. -/
theorem seekLoopF_find : ∀ (f : Nat) (target : JsonPath) (s s' : DecState),
    s.toks.length < f →
    (seekLoopF f target s = NavResult.ok true s' ↔
      (traceF f s).find? (fun u => pathEqual u.path target) = some s') := by
  intro f
  induction f with
  | zero => intro target s s' h; exact absurd h (Nat.not_lt_zero _)
  | succ g ih =>
    intro target s s' h
    rw [seekLoopF, traceF]
    cases hp : pathEqual s.path target with
    | true =>
      simp [List.find?_cons, hp]
    | false =>
      rw [if_neg (by simp)]
      simp only [List.find?_cons, hp]
      cases hts : tokenStep s with
      | ok o s2 =>
        have hlt := tokenStep_ok_toks s o s2 hts
        exact ih target s2 s' (by omega)
      | fail e s2 => cases e <;> simp
      | panic => simp

/-- When the seek loop reports success, the final live path equals the
target. -/
theorem seekLoopF_ok_true_path : ∀ (f : Nat) (target : JsonPath) (s s' : DecState),
    seekLoopF f target s = NavResult.ok true s' → pathEqual s'.path target = true := by
  intro f
  induction f with
  | zero => intro target s s' h; exact absurd h (by simp [seekLoopF])
  | succ g ih =>
    intro target s s' h
    rw [seekLoopF] at h
    cases hp : pathEqual s.path target with
    | true =>
      rw [if_pos hp] at h
      simp only [NavResult.ok.injEq] at h
      rw [← h.2]
      exact hp
    | false =>
      rw [if_neg (by simp [hp])] at h
      cases hts : tokenStep s with
      | ok o s2 => rw [hts] at h; exact ih target s2 s' h
      | fail e s2 =>
        rw [hts] at h
        cases e
        · simp only [NavResult.ok.injEq] at h
          exact absurd h.1 (by simp)
        · simp at h
      | panic => rw [hts] at h; simp at h

/-- incTop on a path whose top is an index. -/
theorem incTop_concat (q : JsonPath) (i : Int) :
    incTop (q ++ [Seg.idx i]) = some (q ++ [Seg.idx (i + 1)]) := by
  rw [incTop, List.getLast?_concat, List.dropLast_concat]

/-- pop on a non-empty path. -/
theorem pop_concat (q : JsonPath) (x : Seg) : pop (q ++ [x]) = some q := by
  rw [pop, if_neg (by simp), List.dropLast_concat]

/-- nameTop on a non-empty path. -/
theorem nameTop_concat (q : JsonPath) (x : Seg) (n : String) :
    nameTop (q ++ [x]) n = some (q ++ [Seg.key n]) := by
  rw [nameTop, if_neg (by simp), List.dropLast_concat]

/-- inferContext of a key-topped path. -/
theorem inferContext_concat_key (q : JsonPath) (k : String) :
    inferContext (q ++ [Seg.key k]) = jsonContext.objKey := by
  rw [inferContext, List.getLast?_concat]

/-- inferContext of an index-topped path. -/
theorem inferContext_concat_idx (q : JsonPath) (i : Int) :
    inferContext (q ++ [Seg.idx i]) = jsonContext.arrValue := by
  rw [inferContext, List.getLast?_concat]

/-- An arrValue context inference forces an index top. -/
theorem inferContext_arrValue_shape (p : JsonPath) :
    inferContext p = jsonContext.arrValue → ∃ q i, p = q ++ [Seg.idx i] := by
  induction p using List.reverseRecOn with
  | nil => intro h; simp [inferContext] at h
  | append_singleton q x _ =>
    intro h
    cases x with
    | key k => rw [inferContext_concat_key] at h; exact absurd h (by simp)
    | idx i => exact ⟨q, i, rfl⟩

/-- adjustSeekTarget on a target ending in an index. -/
theorem adjust_concat_idx (q : JsonPath) (i : Int) :
    adjustSeekTarget (q ++ [Seg.idx i]) = q ++ [Seg.idx (i - 1)] := by
  rw [adjustSeekTarget, List.getLast?_concat]
  rw [List.dropLast_concat]

/-- adjustSeekTarget on a target ending in a key. -/
theorem adjust_concat_key (q : JsonPath) (k : String) :
    adjustSeekTarget (q ++ [Seg.key k]) = q ++ [Seg.key k] := by
  rw [adjustSeekTarget, List.getLast?_concat]

/-
Claim theorems.
-/

/-- Claim C4: for every token consumed via Token, an object-start token
increments the top index exactly when the context is arrValue, then
pushes a placeholder key segment and sets the context to objKey; an
array-start token likewise conditionally increments, then pushes index
segment -1 and sets the context to arrValue; object-end and array-end
pop the top segment and recompute the context from the new top
(key-shaped to objKey, index-shaped to arrValue, empty to none). -/
theorem claim_C4_token_transitions :
    (∀ (q : JsonPath) (i : Int),
       tokenStepCore JsonToken.objOpen (q ++ [Seg.idx i]) jsonContext.arrValue
         = some (OutToken.tok JsonToken.objOpen,
             (q ++ [Seg.idx (i + 1)]) ++ [Seg.key ""], jsonContext.objKey))
    ∧ (∀ (p : JsonPath) (c : jsonContext), c ≠ jsonContext.arrValue →
       tokenStepCore JsonToken.objOpen p c
         = some (OutToken.tok JsonToken.objOpen, p ++ [Seg.key ""], jsonContext.objKey))
    ∧ (∀ (q : JsonPath) (i : Int),
       tokenStepCore JsonToken.arrOpen (q ++ [Seg.idx i]) jsonContext.arrValue
         = some (OutToken.tok JsonToken.arrOpen,
             (q ++ [Seg.idx (i + 1)]) ++ [Seg.idx (-1)], jsonContext.arrValue))
    ∧ (∀ (p : JsonPath) (c : jsonContext), c ≠ jsonContext.arrValue →
       tokenStepCore JsonToken.arrOpen p c
         = some (OutToken.tok JsonToken.arrOpen, p ++ [Seg.idx (-1)], jsonContext.arrValue))
    ∧ (∀ (q : JsonPath) (x : Seg) (c : jsonContext),
       tokenStepCore JsonToken.objClose (q ++ [x]) c
         = some (OutToken.tok JsonToken.objClose, q, inferContext q))
    ∧ (∀ (q : JsonPath) (x : Seg) (c : jsonContext),
       tokenStepCore JsonToken.arrClose (q ++ [x]) c
         = some (OutToken.tok JsonToken.arrClose, q, inferContext q))
    ∧ inferContext ([] : JsonPath) = jsonContext.none
    ∧ (∀ (q : JsonPath) (k : String), inferContext (q ++ [Seg.key k]) = jsonContext.objKey)
    ∧ (∀ (q : JsonPath) (i : Int), inferContext (q ++ [Seg.idx i]) = jsonContext.arrValue) := by
  refine ⟨?_, ?_, ?_, ?_, ?_, ?_, rfl, inferContext_concat_key, inferContext_concat_idx⟩
  · intro q i
    simp [tokenStepCore, incTop_concat, push]
  · intro p c hc
    cases c with
    | arrValue => exact absurd rfl hc
    | none => rfl
    | objKey => rfl
    | objValue => rfl
  · intro q i
    simp [tokenStepCore, incTop_concat, push]
  · intro p c hc
    cases c with
    | arrValue => exact absurd rfl hc
    | none => rfl
    | objKey => rfl
    | objValue => rfl
  · intro q x c
    simp [tokenStepCore, pop_concat]
  · intro q x c
    simp [tokenStepCore, pop_concat]

/-- Witness for claim C4 at concrete inputs. -/
theorem claim_C4_witness :
    tokenStepCore JsonToken.objOpen [Seg.idx 0] jsonContext.arrValue
      = some (OutToken.tok JsonToken.objOpen, [Seg.idx 1, Seg.key ""], jsonContext.objKey)
    ∧ tokenStepCore JsonToken.arrOpen [] jsonContext.none
      = some (OutToken.tok JsonToken.arrOpen, [Seg.idx (-1)], jsonContext.arrValue)
    ∧ tokenStepCore JsonToken.objClose [Seg.key "a"] jsonContext.objKey
      = some (OutToken.tok JsonToken.objClose, [], jsonContext.none) :=
  ⟨claim_C4_token_transitions.1 [] 0,
   claim_C4_token_transitions.2.2.2.1 [] jsonContext.none (by decide),
   claim_C4_token_transitions.2.2.2.2.1 [] (Seg.key "a") jsonContext.objKey⟩

/-- Claim C5: a string token consumed in objKey context renames the top
segment to the string's text, sets the context to objValue, and is
emitted re-tagged as a key-typed string, which is never equal to an
ordinary value-string token, even with identical text. -/
theorem claim_C5_key_string :
    (∀ (q : JsonPath) (x : Seg) (txt : String),
       tokenStepCore (JsonToken.str txt) (q ++ [x]) jsonContext.objKey
         = some (OutToken.keyStr txt, q ++ [Seg.key txt], jsonContext.objValue))
    ∧ (∀ s1 s2 : String, OutToken.keyStr s1 ≠ OutToken.tok (JsonToken.str s2)) := by
  constructor
  · intro q x txt
    simp [tokenStepCore, nameTop_concat]
  · intro s1 s2 h
    exact OutToken.noConfusion h

/-- Witness for claim C5 at concrete inputs. -/
theorem claim_C5_witness :
    tokenStepCore (JsonToken.str "v") [Seg.key ""] jsonContext.objKey
      = some (OutToken.keyStr "v", [Seg.key "v"], jsonContext.objValue)
    ∧ OutToken.keyStr "v" ≠ OutToken.tok (JsonToken.str "v") :=
  ⟨claim_C5_key_string.1 [] (Seg.key "") "v", claim_C5_key_string.2 "v" "v"⟩

/-- Claim C7: Decode first applies exactly the context transition an
ordinary primitive token would apply (objValue to objKey; arrValue
increments the top index), before and regardless of the actual value
consumed. -/
theorem claim_C7_decode_transition :
    (∀ (n : Int) (p : JsonPath) (c : jsonContext),
       tokenStepCore (JsonToken.num n) p c
         = (decodeBookkeeping p c).map
             (fun pc => (OutToken.tok (JsonToken.num n), pc.1, pc.2)))
    ∧ (∀ p : JsonPath, decodeBookkeeping p jsonContext.objValue = some (p, jsonContext.objKey))
    ∧ (∀ (q : JsonPath) (i : Int),
       decodeBookkeeping (q ++ [Seg.idx i]) jsonContext.arrValue
         = some (q ++ [Seg.idx (i + 1)], jsonContext.arrValue))
    ∧ (∀ (s : DecState) (v : List JsonToken) (s' : DecState),
       decode s = some (v, s') →
       some (s'.path, s'.context) = decodeBookkeeping s.path s.context) := by
  refine ⟨?_, ?_, ?_, ?_⟩
  · intro n p c
    cases c with
    | arrValue =>
      simp only [tokenStepCore, decodeBookkeeping]
      cases incTop p <;> simp
    | none => rfl
    | objKey => rfl
    | objValue => rfl
  · intro p
    rfl
  · intro q i
    simp [decodeBookkeeping, incTop_concat]
  · intro s v s' h
    unfold decode at h
    cases hb : decodeBookkeeping s.path s.context with
    | none => rw [hb] at h; simp at h
    | some pc =>
      obtain ⟨p, c⟩ := pc
      rw [hb] at h
      cases ht : takeValue s.toks with
      | none => rw [ht] at h; simp at h
      | some vr =>
        obtain ⟨v0, rest⟩ := vr
        rw [ht] at h
        simp only [Option.some.injEq, Prod.mk.injEq] at h
        rw [← h.2]

/-- Witness for claim C7 at concrete inputs. -/
theorem claim_C7_witness :
    tokenStepCore (JsonToken.num 5) [Seg.idx 0] jsonContext.arrValue
      = (decodeBookkeeping [Seg.idx 0] jsonContext.arrValue).map
          (fun pc => (OutToken.tok (JsonToken.num 5), pc.1, pc.2))
    ∧ some ((⟨[], TokErr.eof, [Seg.idx 1], jsonContext.arrValue⟩ : DecState).path,
        (⟨[], TokErr.eof, [Seg.idx 1], jsonContext.arrValue⟩ : DecState).context)
      = decodeBookkeeping [Seg.idx 0] jsonContext.arrValue :=
  ⟨claim_C7_decode_transition.1 5 [Seg.idx 0] jsonContext.arrValue,
   claim_C7_decode_transition.2.2.2
     ⟨[JsonToken.num 9], TokErr.eof, [Seg.idx 0], jsonContext.arrValue⟩
     [JsonToken.num 9] ⟨[], TokErr.eof, [Seg.idx 1], jsonContext.arrValue⟩ (by decide)⟩

/-- Claim C10: a SeekTo call on a non-empty target ending in the integer
i overwrites the final element of the caller-supplied slice with i - 1
before entering its matching loop, an observable mutation: the slice's
contents after the call differ from the contents passed in. -/
theorem claim_C10_arg_mutation :
    ∀ (q : JsonPath) (i : Int) (s : DecState),
      (seekTo (q ++ [Seg.idx i]) s).2 = q ++ [Seg.idx (i - 1)]
      ∧ q ++ [Seg.idx (i - 1)] ≠ q ++ [Seg.idx i] := by
  intro q i s
  constructor
  · rw [seekTo, if_neg (by simp)]
    exact adjust_concat_idx q i
  · intro h
    simp only [List.append_cancel_left_eq, List.cons.injEq, Seg.idx.injEq] at h
    omega

/-- Witness for claim C10 at concrete inputs. -/
theorem claim_C10_witness :
    (seekTo [Seg.key "a", Seg.idx 3] docNested).2 = [Seg.key "a", Seg.idx 2]
    ∧ [Seg.key "a", Seg.idx 2] ≠ [Seg.key "a", Seg.idx 3] :=
  claim_C10_arg_mutation [Seg.key "a"] 3 docNested

/-- One unfolding of the seek loop when the live path already equals the
target: immediate success without consuming a token. -/
theorem seekLoop_here (target : JsonPath) (s : DecState)
    (h : pathEqual s.path target = true) :
    seekLoop target s = NavResult.ok true s := by
  rw [seekLoop, seekLoopF, if_pos h]

/-- Claim C8: SeekTo returns (true, nil) immediately, consuming zero
tokens (state unchanged), whenever the match condition already holds: a
zero-length target succeeds exactly when the current path is empty, and
re-seeking a target just successfully sought succeeds at once. -/
theorem claim_C8_immediate :
    (∀ s : DecState, (seekTo [] s).1 = NavResult.ok (s.path.length == 0) s)
    ∧ (∀ (p : JsonPath) (s s' : DecState),
        (seekTo p s).1 = NavResult.ok true s' →
        (seekTo p s').1 = NavResult.ok true s') := by
  constructor
  · intro s
    rfl
  · intro p s s' h
    cases p with
    | nil =>
      have h' : NavResult.ok (s.path.length == 0) s = NavResult.ok true s' := h
      simp only [NavResult.ok.injEq] at h'
      show NavResult.ok (s'.path.length == 0) s' = NavResult.ok true s'
      rw [← h'.2, h'.1]
    | cons a ps =>
      rw [seekTo, if_neg (by simp)] at h
      have h' : seekLoop (adjustSeekTarget (a :: ps)) s = NavResult.ok true s' := h
      have hpe := seekLoopF_ok_true_path (s.toks.length + 1) (adjustSeekTarget (a :: ps)) s s' h'
      rw [seekTo, if_neg (by simp)]
      show seekLoop (adjustSeekTarget (a :: ps)) s' = NavResult.ok true s'
      exact seekLoop_here (adjustSeekTarget (a :: ps)) s' hpe

/-- Witness for claim C8: seeking the empty target at document start
succeeds with zero tokens consumed, and re-seeking after a successful
seek succeeds with zero tokens consumed. -/
theorem claim_C8_witness :
    (seekTo [] docNested).1 = NavResult.ok (docNested.path.length == 0) docNested
    ∧ (seekTo [Seg.key "a", Seg.idx 3]
        ⟨[JsonToken.objOpen, JsonToken.str "b", JsonToken.num 0, JsonToken.str "v",
          JsonToken.num 35, JsonToken.objClose, JsonToken.arrClose, JsonToken.objClose],
         TokErr.eof, [Seg.key "a", Seg.idx 2], jsonContext.arrValue⟩).1
      = NavResult.ok true
        ⟨[JsonToken.objOpen, JsonToken.str "b", JsonToken.num 0, JsonToken.str "v",
          JsonToken.num 35, JsonToken.objClose, JsonToken.arrClose, JsonToken.objClose],
         TokErr.eof, [Seg.key "a", Seg.idx 2], jsonContext.arrValue⟩ :=
  ⟨claim_C8_immediate.1 docNested,
   claim_C8_immediate.2 [Seg.key "a", Seg.idx 3] docNested _ (by decide)⟩

/-- Claim C2: for a non-empty target ending in the array index i, SeekTo
returns (true, nil) at state s' exactly when s' is the first state the
loop inspects (the call-time state, then the state after each consumed
token) whose live path equals the target with its final segment replaced
by i - 1. -/
theorem claim_C2_index_timing :
    ∀ (q : JsonPath) (i : Int) (s s' : DecState),
      ((seekTo (q ++ [Seg.idx i]) s).1 = NavResult.ok true s' ↔
        (trace s).find? (fun u => pathEqual u.path (q ++ [Seg.idx (i - 1)])) = some s') := by
  intro q i s s'
  rw [seekTo, if_neg (by simp)]
  show seekLoop (adjustSeekTarget (q ++ [Seg.idx i])) s = _ ↔ _
  rw [adjust_concat_idx, seekLoop, trace]
  exact seekLoopF_find (s.toks.length + 1) (q ++ [Seg.idx (i - 1)]) s s' (by omega)

/-- Witness for claim C2: on the spec's example document, SeekTo("a",3)
stops at the first state whose path is ["a", 2], entering element 3. -/
theorem claim_C2_witness :
    (seekTo [Seg.key "a", Seg.idx 3] docNested).1
      = NavResult.ok true
        ⟨[JsonToken.objOpen, JsonToken.str "b", JsonToken.num 0, JsonToken.str "v",
          JsonToken.num 35, JsonToken.objClose, JsonToken.arrClose, JsonToken.objClose],
         TokErr.eof, [Seg.key "a", Seg.idx 2], jsonContext.arrValue⟩ :=
  (claim_C2_index_timing [Seg.key "a"] 3 docNested _).mpr (by decide)

/-- One unfolding of the Scan loop at the match label when the current
path is no longer than the root: the subtree is exhausted and Scan
returns (matched-so-far, nil). -/
theorem scanStep_stop (fuel : Nat) (ext : TrieNode) (root : JsonPath) (m : Bool)
    (log : ScanLog) (s : DecState) (h : s.path.length ≤ root.length) :
    scanStep (fuel + 1) ScanPhase.matchStep ext root m log s = ScanRes.done m log s := by
  rw [scanStep, if_neg (by omega)]

/-- Counterexample to claim C1: Scan on an exhausted source reports the
end-of-stream condition as its error, returning (false, io.EOF) instead
of stopping normally with no error. -/
theorem claim_C1_counterexample :
    scan 1 trieEmpty exhaustedDec
      = ScanRes.err false TokErr.eof [] exhaustedDec := rfl

/-- Claim C1 as amended: when the underlying source reports end of
stream, SeekTo stops normally with (false, nil); Scan instead returns
(matched-so-far, error) with the source's terminal condition — io.EOF
included — as its error. -/
theorem claim_C1_amended_eof :
    (∀ (t : JsonPath) (s : DecState),
       s.toks = [] → s.final = TokErr.eof → t.length ≠ 0 →
       pathEqual s.path (adjustSeekTarget t) = false →
       (seekTo t s).1 = NavResult.ok false s)
    ∧ (∀ (fuel : Nat) (ext : TrieNode) (root : JsonPath) (m : Bool)
         (log : ScanLog) (s : DecState),
       s.toks = [] →
       scanStep (fuel + 1) ScanPhase.advance ext root m log s
         = ScanRes.err m s.final log s) := by
  constructor
  · intro t s ht hf hlen hne
    rw [seekTo, if_neg hlen]
    show seekLoop (adjustSeekTarget t) s = NavResult.ok false s
    have hts : tokenStep s = TokenResult.fail TokErr.eof s := by
      simp [tokenStep, ht, hf]
    rw [seekLoop]
    simp only [ht, List.length_nil]
    rw [seekLoopF, if_neg (by simp [hne]), hts]
  · intro fuel ext root m log s ht
    have hts : tokenStep s = TokenResult.fail s.final s := by
      simp [tokenStep, ht]
    rw [scanStep, hts]

/-- Witness for the amended claim C1 at concrete inputs. -/
theorem claim_C1_amended_witness :
    (seekTo [Seg.key "a"] exhaustedDec).1 = NavResult.ok false exhaustedDec
    ∧ scanStep 1 ScanPhase.advance trieEmpty [] false [] exhaustedDec
        = ScanRes.err false TokErr.eof [] exhaustedDec :=
  ⟨claim_C1_amended_eof.1 [Seg.key "a"] exhaustedDec rfl rfl (by decide) (by decide),
   claim_C1_amended_eof.2 0 trieEmpty [] false [] exhaustedDec rfl⟩

/-- Claim C6: Scan roots itself at the call-time path, pre-incrementing
a trailing array index once when the root sits in array context; after a
consumed token (and at each match-label entry) it stops with
(matched-so-far, nil) as soon as the current path's length does not
exceed the root's; otherwise the path looked up in the trie is the
current path with the root-length prefix stripped, advancing without
firing when the trie has no node for it. -/
theorem claim_C6_scan_root_rel :
    (∀ (fuel : Nat) (ext : TrieNode) (s : DecState) (q : JsonPath) (i : Int),
       s.path = q ++ [Seg.idx i] →
       scan fuel ext s
         = scanStep fuel ScanPhase.advance ext (q ++ [Seg.idx (i + 1)]) false [] s)
    ∧ (∀ (fuel : Nat) (ext : TrieNode) (s : DecState),
       inferContext s.path ≠ jsonContext.arrValue →
       scan fuel ext s = scanStep fuel ScanPhase.advance ext s.path false [] s)
    ∧ (∀ (fuel : Nat) (ext : TrieNode) (root : JsonPath) (m : Bool) (log : ScanLog)
         (s s' : DecState) (o : OutToken),
       tokenStep s = TokenResult.ok o s' → s'.path.length ≤ root.length →
       scanStep (fuel + 2) ScanPhase.advance ext root m log s = ScanRes.done m log s')
    ∧ (∀ (fuel : Nat) (ext : TrieNode) (root : JsonPath) (m : Bool) (log : ScanLog)
         (s : DecState),
       s.path.length ≤ root.length →
       scanStep (fuel + 1) ScanPhase.matchStep ext root m log s = ScanRes.done m log s)
    ∧ (∀ (fuel : Nat) (ext : TrieNode) (root : JsonPath) (m : Bool) (log : ScanLog)
         (s : DecState),
       root.length < s.path.length →
       trieMatch ext (s.path.drop root.length) = Option.none →
       scanStep (fuel + 1) ScanPhase.matchStep ext root m log s
         = scanStep fuel ScanPhase.advance ext root m log s) := by
  refine ⟨?_, ?_, ?_, scanStep_stop, ?_⟩
  · intro fuel ext s q i hpath
    rw [scan, hpath]
    rw [if_pos (by rw [inferContext_concat_idx]; rfl)]
    rw [incTop_concat]
  · intro fuel ext s hic
    rw [scan, if_neg (by simpa using hic)]
  · intro fuel ext root m log s s' o hts hlen
    rw [scanStep, hts]
    exact scanStep_stop fuel ext root m log s' hlen
  · intro fuel ext root m log s hlen htm
    rw [scanStep, if_pos hlen, htm]

/-- Witness for claim C6 at concrete inputs. -/
theorem claim_C6_witness :
    scan 7 trieEmpty ⟨[JsonToken.num 1], TokErr.eof, [Seg.idx 0], jsonContext.arrValue⟩
      = scanStep 7 ScanPhase.advance trieEmpty [Seg.idx 1] false []
          ⟨[JsonToken.num 1], TokErr.eof, [Seg.idx 0], jsonContext.arrValue⟩
    ∧ scan 7 trieEmpty docNested
      = scanStep 7 ScanPhase.advance trieEmpty [] false [] docNested
    ∧ scanStep 2 ScanPhase.advance trieEmpty [Seg.idx 1] false []
        ⟨[JsonToken.num 1], TokErr.eof, [Seg.idx 0], jsonContext.arrValue⟩
      = ScanRes.done false []
          ⟨[], TokErr.eof, [Seg.idx 1], jsonContext.arrValue⟩
    ∧ scanStep 1 ScanPhase.matchStep trieEmpty [Seg.key "a"] true []
        ⟨[], TokErr.eof, [Seg.key "a"], jsonContext.objValue⟩
      = ScanRes.done true [] ⟨[], TokErr.eof, [Seg.key "a"], jsonContext.objValue⟩
    ∧ scanStep 1 ScanPhase.matchStep trieEmpty [] false []
        ⟨[], TokErr.eof, [Seg.idx 0], jsonContext.arrValue⟩
      = scanStep 0 ScanPhase.advance trieEmpty [] false []
          ⟨[], TokErr.eof, [Seg.idx 0], jsonContext.arrValue⟩ :=
  ⟨claim_C6_scan_root_rel.1 7 trieEmpty _ [] 0 rfl,
   claim_C6_scan_root_rel.2.1 7 trieEmpty docNested (by decide),
   claim_C6_scan_root_rel.2.2.1 0 trieEmpty [Seg.idx 1] false []
     ⟨[JsonToken.num 1], TokErr.eof, [Seg.idx 0], jsonContext.arrValue⟩
     ⟨[], TokErr.eof, [Seg.idx 1], jsonContext.arrValue⟩
     (OutToken.tok (JsonToken.num 1)) (by decide) (by decide),
   claim_C6_scan_root_rel.2.2.2.1 0 trieEmpty [Seg.key "a"] true []
     ⟨[], TokErr.eof, [Seg.key "a"], jsonContext.objValue⟩ (by decide),
   claim_C6_scan_root_rel.2.2.2.2 0 trieEmpty [] false []
     ⟨[], TokErr.eof, [Seg.idx 0], jsonContext.arrValue⟩ (by decide) rfl⟩

/-- Claim C3: after a registered callback is invoked, when the context
is arrValue and another element is available without consuming a token,
Scan jumps back to the match label on the callback's post-state — the
relative path is re-evaluated before advancing.  Consequently, over
[1,2,3], a registration matching any index fires once per element, in
order, three times total, and a registration matching the literal
index 1 fires exactly once. -/
theorem claim_C3_per_element :
    (∀ (fuel : Nat) (ext : TrieNode) (root : JsonPath) (m : Bool) (log : ScanLog)
       (s : DecState) (act : ScanAction) (children : List (PathMatcher × TrieNode))
       (payload : List JsonToken) (s' : DecState),
      root.length < s.path.length →
      trieMatch ext (s.path.drop root.length) = some (TrieNode.node (some act) children) →
      act s = some (payload, s') →
      s'.context = jsonContext.arrValue → more s'.toks = true →
      scanStep (fuel + 1) ScanPhase.matchStep ext root m log s
        = scanStep fuel ScanPhase.matchStep ext root true (log ++ [(s.path, payload)]) s')
    ∧ scan 20 trieAnyIdx docArr123
      = ScanRes.done true
          [([Seg.idx (-1)], [JsonToken.num 1]),
           ([Seg.idx 0], [JsonToken.num 2]),
           ([Seg.idx 1], [JsonToken.num 3])]
          ⟨[], TokErr.eof, [], jsonContext.none⟩
    ∧ scan 20 trieIdx1 docArr123
      = ScanRes.done true [([Seg.idx 1], [JsonToken.num 3])]
          ⟨[], TokErr.eof, [], jsonContext.none⟩ := by
  refine ⟨?_, rfl, rfl⟩
  intro fuel ext root m log s act children payload s' h1 h2 h3 h4 h5
  rw [scanStep, if_pos h1]
  simp only [h2, h3]
  rw [if_pos (by rw [h4, h5]; rfl)]

/-- Witness for claim C3's re-evaluation step at a concrete mid-scan
state of the [1,2,3] run. -/
theorem claim_C3_witness :
    scanStep 6 ScanPhase.matchStep trieAnyIdx [] false []
      ⟨[JsonToken.num 1, JsonToken.num 2, JsonToken.num 3, JsonToken.arrClose],
       TokErr.eof, [Seg.idx (-1)], jsonContext.arrValue⟩
    = scanStep 5 ScanPhase.matchStep trieAnyIdx [] true
        [([Seg.idx (-1)], [JsonToken.num 1])]
        ⟨[JsonToken.num 2, JsonToken.num 3, JsonToken.arrClose],
         TokErr.eof, [Seg.idx 0], jsonContext.arrValue⟩ :=
  claim_C3_per_element.1 5 trieAnyIdx [] false []
    ⟨[JsonToken.num 1, JsonToken.num 2, JsonToken.num 3, JsonToken.arrClose],
     TokErr.eof, [Seg.idx (-1)], jsonContext.arrValue⟩
    decodeAction [] [JsonToken.num 1]
    ⟨[JsonToken.num 2, JsonToken.num 3, JsonToken.arrClose],
     TokErr.eof, [Seg.idx 0], jsonContext.arrValue⟩
    (by decide) rfl rfl rfl rfl

/-- Reading beside an overwritten heap slot is unaffected. -/
theorem getD_set_ne (l : List JsonPath) : ∀ (i j : Nat) (x : JsonPath), i ≠ j →
    (l.set i x).getD j [] = l.getD j [] := by
  induction l with
  | nil => intro i j x _; rfl
  | cons a t ih =>
    intro i j x h
    cases i with
    | zero =>
      cases j with
      | zero => exact absurd rfl h
      | succ j' => rfl
    | succ i' =>
      cases j with
      | zero => rfl
      | succ j' => exact ih i' j' x (by omega)

/-- Reading the freshly appended heap slot yields the appended array. -/
theorem getD_append_len (l : List JsonPath) (x : JsonPath) :
    (l ++ [x]).getD l.length [] = x := by
  induction l with
  | nil => rfl
  | cons a t ih => exact ih

/-- A heap-level Token() step keeps the decoder id and the heap size,
and writes no slot other than the decoder's. -/
theorem hTokenStep_frame (st : HeapState) (c : jsonContext) (t : JsonToken)
    (st' : HeapState) (c' : jsonContext) (h : hTokenStep st c t = some (st', c')) :
    st'.decId = st.decId ∧ st'.heap.length = st.heap.length
    ∧ ∀ j, j ≠ st.decId → heapGet st'.heap j = heapGet st.heap j := by
  unfold hTokenStep at h
  cases hc : tokenStepCore t (heapGet st.heap st.decId) c with
  | none => rw [hc] at h; simp at h
  | some v =>
    obtain ⟨o, p', c2⟩ := v
    rw [hc] at h
    simp only [Option.some.injEq, Prod.mk.injEq] at h
    rw [← h.1]
    refine ⟨rfl, by simp [heapSet], ?_⟩
    intro j hj
    simp only [heapGet, heapSet]
    exact getD_set_ne st.heap st.decId j p' (fun he => hj he.symm)

/-- A heap-level Decode() bookkeeping step keeps the decoder id and the
heap size, and writes no slot other than the decoder's. -/
theorem hDecodeStep_frame (st : HeapState) (c : jsonContext)
    (st' : HeapState) (c' : jsonContext) (h : hDecodeStep st c = some (st', c')) :
    st'.decId = st.decId ∧ st'.heap.length = st.heap.length
    ∧ ∀ j, j ≠ st.decId → heapGet st'.heap j = heapGet st.heap j := by
  unfold hDecodeStep at h
  cases hc : decodeBookkeeping (heapGet st.heap st.decId) c with
  | none => rw [hc] at h; simp at h
  | some v =>
    obtain ⟨p', c2⟩ := v
    rw [hc] at h
    simp only [Option.some.injEq, Prod.mk.injEq] at h
    rw [← h.1]
    refine ⟨rfl, by simp [heapSet], ?_⟩
    intro j hj
    simp only [heapGet, heapSet]
    exact getD_set_ne st.heap st.decId j p' (fun he => hj he.symm)

/-- A run of decoder operations keeps the decoder id and heap size, and
writes no slot other than the decoder's. -/
theorem hRun_frame : ∀ (ops : List DecOp) (st : HeapState) (c : jsonContext)
    (st' : HeapState) (c' : jsonContext), hRun st c ops = some (st', c') →
    st'.decId = st.decId ∧ st'.heap.length = st.heap.length
    ∧ ∀ j, j ≠ st.decId → heapGet st'.heap j = heapGet st.heap j := by
  intro ops
  induction ops with
  | nil =>
    intro st c st' c' h
    rw [hRun] at h
    simp only [Option.some.injEq, Prod.mk.injEq] at h
    rw [← h.1]
    exact ⟨rfl, rfl, fun j _ => rfl⟩
  | cons op rest ih =>
    intro st c st' c' h
    cases op with
    | tok t =>
      rw [hRun] at h
      cases hstep : hTokenStep st c t with
      | none => rw [hstep] at h; simp at h
      | some v =>
        obtain ⟨st1, c1⟩ := v
        rw [hstep] at h
        have hf1 := hTokenStep_frame st c t st1 c1 hstep
        have hf2 := ih st1 c1 st' c' h
        refine ⟨hf2.1.trans hf1.1, hf2.2.1.trans hf1.2.1, ?_⟩
        intro j hj
        exact (hf2.2.2 j (by rw [hf1.1]; exact hj)).trans (hf1.2.2 j hj)
    | dec =>
      rw [hRun] at h
      cases hstep : hDecodeStep st c with
      | none => rw [hstep] at h; simp at h
      | some v =>
        obtain ⟨st1, c1⟩ := v
        rw [hstep] at h
        have hf1 := hDecodeStep_frame st c st1 c1 hstep
        have hf2 := ih st1 c1 st' c' h
        refine ⟨hf2.1.trans hf1.1, hf2.2.1.trans hf1.2.1, ?_⟩
        intro j hj
        exact (hf2.2.2 j (by rw [hf1.1]; exact hj)).trans (hf1.2.2 j hj)

/-- Claim C9: the path snapshot returned by Path() is independent: after
any sequence of subsequent Token()/Decode() steps (SeekTo and Scan are
loops of exactly these), the snapshot's array still holds the path as it
was at snapshot time, and overwriting the snapshot's array leaves the
decoder's internal path unchanged. -/
theorem claim_C9_snapshot :
    ∀ (st : HeapState) (c : jsonContext) (ops : List DecOp)
      (st' : HeapState) (c' : jsonContext),
      st.decId < st.heap.length →
      hRun (hPath st).1 c ops = some (st', c') →
      heapGet st'.heap (hPath st).2 = heapGet st.heap st.decId
      ∧ (∀ p : JsonPath,
          heapGet (heapSet st'.heap (hPath st).2 p) st'.decId
            = heapGet st'.heap st'.decId) := by
  intro st c ops st' c' hd h
  have hf := hRun_frame ops (hPath st).1 c st' c' h
  have hdec : st'.decId = st.decId := hf.1
  constructor
  · have h1 : heapGet st'.heap st.heap.length = heapGet (hPath st).1.heap st.heap.length :=
      hf.2.2 st.heap.length (by show st.heap.length ≠ st.decId; omega)
    rw [show (hPath st).2 = st.heap.length from rfl, h1]
    exact getD_append_len st.heap (heapGet st.heap st.decId)
  · intro p
    simp only [heapGet, heapSet]
    refine getD_set_ne st'.heap (hPath st).2 st'.decId p ?_
    show st.heap.length ≠ st'.decId
    rw [hdec]
    omega

/-- Witness for claim C9 at a concrete heap and run. -/
theorem claim_C9_witness :
    heapGet [[Seg.idx 1], [Seg.idx 0]] 1 = [Seg.idx 0] :=
  (claim_C9_snapshot ⟨[[Seg.idx 0]], 0⟩ jsonContext.arrValue [DecOp.tok (JsonToken.num 7)]
    ⟨[[Seg.idx 1], [Seg.idx 0]], 0⟩ jsonContext.arrValue (by decide) (by decide)).1
